import Mathlib

/-!
Shallow embedding of `merge_claude_settings.py` (repository `fecet/vape`).

The script discovers `.claude/settings.local.json` files under a root,
extracts their `permissions.allow` lists, unions them and writes the result
into an output settings document, preserving unrelated fields.

Modelling conventions:
* JSON documents are the inductive `Json` below; Python dicts are ordered
  association lists (first binding wins on lookup, in-place update on
  assignment, append on fresh key), mirroring CPython dict semantics.
* `json.loads` is a parameter `loads : String → Except String Json`
  (the Python `json` library is not repository code); the error payload is
  the exception message.
* Python sets of permission strings are `Finset String`; `set(x)` is
  modelled for `x` a JSON array of strings (`Json.strSet`); other arguments
  are out of model and treated as a raised exception.
* `print` calls are modelled as abstract `Msg` events collected in order.
* Machine-level I/O is explicit: an input file is a `(path, content)` pair,
  the output file is `Option String` (absent / content).
-/

/-- JSON values (floats do not occur in settings documents; numbers are
modelled as integers). Objects keep insertion order like Python dicts. -/
inductive Json where
  | null : Json
  | bool (b : Bool) : Json
  | num (n : Int) : Json
  | str (s : String) : Json
  | arr (elems : List Json) : Json
  | obj (fields : List (String × Json)) : Json

namespace Json

/-- First-match lookup in an ordered field list (Python dict lookup). -/
def lookupList : List (String × Json) → String → Option Json
  | [], _ => none
  | (k, v) :: fs, key => if k = key then some v else lookupList fs key

/-- Python dict item assignment: replace in place, else append. -/
def setKey : List (String × Json) → String → Json → List (String × Json)
  | [], key, v => [(key, v)]
  | (k, w) :: fs, key, v =>
      if k = key then (k, v) :: fs else (k, w) :: setKey fs key v

def containsKey (fs : List (String × Json)) (k : String) : Bool :=
  (lookupList fs k).isSome

/-- Is `p` a (contiguous) prefix of `s`? -/
def hasPre : List Char → List Char → Bool
  | [], _ => true
  | _ :: _, [] => false
  | a :: ps, b :: ss => a = b && hasPre ps ss

/-- Is `p` a contiguous substring of `s`?  (Python `str.__contains__`.) -/
def hasSub (p : List Char) : List Char → Bool
  | [] => p.isEmpty
  | c :: rest => hasPre p (c :: rest) || hasSub p rest

/-- Python `key in j`.  Dict: key membership; list: element membership;
string: substring; other types raise `TypeError` (modelled as `.error`). -/
def memTest (j : Json) (k : String) : Except String Bool :=
  match j with
  | .obj fs => .ok (containsKey fs k)
  | .arr xs =>
      .ok (xs.any (fun x =>
        match x with
        | .str s => decide (s = k)
        | _ => false))
  | .str s => .ok (hasSub k.data s.data)
  | _ => .error "TypeError"

/-- Python `j[k]` for a string key: only dicts succeed; a missing key is
`KeyError`, any other receiver raises `TypeError`. -/
def getItem (j : Json) (k : String) : Except String Json :=
  match j with
  | .obj fs =>
      match lookupList fs k with
      | some v => .ok v
      | none => .error "KeyError"
  | _ => .error "TypeError"

/-- Python `j[k] = v` for a string key: only dicts succeed. -/
def setItem (j : Json) (k : String) (v : Json) : Except String Json :=
  match j with
  | .obj fs => .ok (.obj (setKey fs k v))
  | _ => .error "TypeError"

/-- Python `j.get(k, dflt)`: only dicts have `.get` (`AttributeError`
otherwise). -/
def getd (j : Json) (k : String) (dflt : Json) : Except String Json :=
  match j with
  | .obj fs => .ok ((lookupList fs k).getD dflt)
  | _ => .error "AttributeError"

/-- The strings of a JSON array, when every element is a string. -/
def asStrList : List Json → Option (List String)
  | [] => some []
  | .str s :: xs => (asStrList xs).map (fun l => s :: l)
  | _ :: _ => none

/-- Python `set(x)` restricted to `x` a JSON array of strings.  Arrays with
non-string elements and non-array values are out of model (`none`, treated
by callers as a raised exception). -/
def strSet (j : Json) : Option (Finset String) :=
  match j with
  | .arr xs => (asStrList xs).map List.toFinset
  | _ => none

end Json

/-! ### `re.sub(r",\s*([}\]])", r"\1", content)` — trailing-comma repair

`re.sub` scans left to right; a match starts at a `,`, swallows the maximal
whitespace run, and requires the next character to be `}` or `]`; the match
is replaced by that bracket.  Scanning resumes after the replaced text.
`\s` is modelled by its ASCII members. -/

def isPySpace (c : Char) : Bool :=
  c = ' ' || c = '\t' || c = '\x0a' || c = '\x0d' || c = '\x0b' || c = '\x0c'

def fixAux : List Char → List Char
  | [] => []
  | c :: rest =>
      if c = ',' then
        match h : rest.dropWhile isPySpace with
        | b :: tail =>
            if b = '\x7d' || b = ']' then b :: fixAux tail
            else c :: fixAux rest
        | [] => c :: fixAux rest
      else c :: fixAux rest
termination_by l => l.length
decreasing_by
  · simp only [List.length_cons]
    have h1 : (rest.dropWhile isPySpace).length ≤ rest.length :=
      (List.dropWhile_sublist _).length_le
    rw [h] at h1
    simp only [List.length_cons] at h1
    omega
  · simp
  · simp
  · simp

/-- Lines 118-122 of the source: strip trailing commas before `]` or `}`. -/
def fixTrailingCommas (s : String) : String := String.mk (fixAux s.data)

/-! ### `json.dump(existing_settings, f, indent=2, ensure_ascii=False)`

A faithful rendering of CPython's `json` serializer at `indent=2` with
default separators `(",", ": ")` and `ensure_ascii=False`. -/

def natReprAux : Nat → List Char → List Char
  | 0, acc => acc
  | n + 1, acc => natReprAux ((n + 1) / 10) (Nat.digitChar ((n + 1) % 10) :: acc)
decreasing_by exact Nat.div_lt_self (Nat.succ_pos n) (by omega)

/-- Decimal digits of a natural number. -/
def natRepr (n : Nat) : List Char := if n = 0 then ['0'] else natReprAux n []

/-- Python `repr` of an integer. -/
def intRepr (i : Int) : List Char :=
  if i < 0 then '-' :: natRepr i.natAbs else natRepr i.natAbs

/-- JSON string escaping with `ensure_ascii=False`: escape backslash,
double quote and control characters (shortcuts for the common ones,
`\u00XX` otherwise). -/
def escChar (c : Char) : List Char :=
  if c = '\\' then ['\\', '\\']
  else if c = '"' then ['\\', '"']
  else if c = '\x0a' then ['\\', 'n']
  else if c = '\x09' then ['\\', 't']
  else if c = '\x0d' then ['\\', 'r']
  else if c = '\x08' then ['\\', 'b']
  else if c = '\x0c' then ['\\', 'f']
  else if c.toNat < 0x20 then
    ['\\', 'u', '0', '0', Nat.digitChar (c.toNat / 16), Nat.digitChar (c.toNat % 16)]
  else [c]

/-- A JSON string literal. -/
def strLit (s : String) : List Char := '"' :: (s.data.flatMap escChar ++ ['"'])

def spaces (n : Nat) : List Char := List.replicate n ' '

mutual

/-- Serialize one JSON value; `ind` is the indentation column at which the
value starts (its container's element indent). -/
def dumpsVal : Json → Nat → List Char
  | .null, _ => ['n', 'u', 'l', 'l']
  | .bool true, _ => ['t', 'r', 'u', 'e']
  | .bool false, _ => ['f', 'a', 'l', 's', 'e']
  | .num i, _ => intRepr i
  | .str s, _ => strLit s
  | .arr [], _ => ['[', ']']
  | .arr (x :: xs), ind =>
      '[' :: '\x0a' :: (dumpsItems (x :: xs) (ind + 2) ++ '\x0a' :: (spaces ind ++ [']']))
  | .obj [], _ => ['\x7b', '\x7d']
  | .obj (f :: fs), ind =>
      '\x7b' :: '\x0a' :: (dumpsFields (f :: fs) (ind + 2) ++ '\x0a' :: (spaces ind ++ ['\x7d']))

def dumpsItems : List Json → Nat → List Char
  | [], _ => []
  | [x], ind => spaces ind ++ dumpsVal x ind
  | x :: y :: xs, ind =>
      spaces ind ++ (dumpsVal x ind ++ ',' :: '\x0a' :: dumpsItems (y :: xs) ind)

def dumpsFields : List (String × Json) → Nat → List Char
  | [], _ => []
  | [(k, v)], ind => spaces ind ++ (strLit k ++ ':' :: ' ' :: dumpsVal v ind)
  | (k, v) :: g :: fs, ind =>
      spaces ind ++ (strLit k ++ ':' :: ' ' :: (dumpsVal v ind ++ ',' :: '\x0a' :: dumpsFields (g :: fs) ind))

end

/-- Python `json.dumps(j, indent=2, ensure_ascii=False)`. -/
def dumps (j : Json) : String := String.mk (dumpsVal j 0)

/-- Lines 166-168: the exact text written to the output file — the
serialized document followed by one newline. -/
def writtenContent (doc : Json) : String := dumps doc ++ "\x0a"

/-! ### Diagnostics

Each `print` in the source is an abstract event.  The payloads keep the
data the messages interpolate. -/

inductive Msg where
  /-- Line 59: JSON parse error in an input file (path and error text). -/
  | parseErrorInput (path : String) (err : String) : Msg
  /-- Line 62: any other error reading an input file. -/
  | readErrorInput (path : String) (err : String) : Msg
  /-- Line 89: per-file progress message of `merge_permissions`. -/
  | foundPermissions (count : Nat) (path : String) : Msg
  /-- Lines 124-126: repair diagnostic after the trailing-comma fix. -/
  | fixedTrailing : Msg
  /-- Line 128. -/
  | readingExisting : Msg
  /-- Lines 136-138: count of existing allowed permissions. -/
  | foundExisting (count : Nat) : Msg
  /-- Lines 141-143: warning that the existing file could not be parsed. -/
  | couldNotParseWarn (err : String) : Msg
  /-- Lines 144-147: `Will preserve other settings but reset permissions`. -/
  | warnWillPreserve : Msg
  /-- Line 173. -/
  | addedNew (count : Nat) : Msg
  /-- Line 175: no new permissions to add. -/
  | noNew : Msg
  /-- Lines 177-178: success report with total unique permission count. -/
  | updatedOk (total : Nat) : Msg
  /-- Line 181: fatal error in `update_settings_file` (exits 1). -/
  | errorWriting (err : String) : Msg
  /-- Line 231: no settings files found. -/
  | noFilesFound : Msg
  /-- Line 240: no permissions found to merge. -/
  | noPermsFound : Msg
  deriving DecidableEq

/-! ### `find_settings_files` (lines 18-36)

The filesystem is the list of (relative, normalized) paths of the files
under the root; `root_dir.glob("**/.claude/settings.local.json")` keeps
the paths whose final two components are `.claude` and
`settings.local.json`; `list.sort()` sorts `Path` objects with
`PurePath.__lt__`, which on POSIX compares the case-folded-identity
*component tuples* (`self._cparts < other._cparts`), not the joined path
string. -/

/-- Does the glob pattern `**/.claude/settings.local.json` match this
relative path? -/
def matchesPattern (p : String) : Bool :=
  p = ".claude/settings.local.json"
    || Json.hasPre "/.claude/settings.local.json".data.reverse p.data.reverse

/-- Split a path into its `/`-separated components (`PurePath._parts` of
a normalized relative path). -/
def splitPartsAux : List Char → List Char → List String
  | [], acc => [String.mk acc.reverse]
  | c :: rest, acc =>
      if c = '/' then String.mk acc.reverse :: splitPartsAux rest []
      else splitPartsAux rest (c :: acc)

def pathParts (p : String) : List String := splitPartsAux p.data []

/-- Strict code-point-lexicographic comparison of character lists
(Python `str.__lt__` on the underlying code points; agrees with
`String.lt`). -/
def charsLt : List Char → List Char → Bool
  | [], [] => false
  | [], _ :: _ => true
  | _ :: _, [] => false
  | a :: as, b :: bs => if a = b then charsLt as bs else decide (a < b)

/-- Python `str` comparison, by code points. -/
def strLtB (a b : String) : Bool := charsLt a.data b.data

/-- Python tuple `<=` on component tuples: elementwise string comparison,
shorter prefix first. -/
def partsLe : List String → List String → Bool
  | [], _ => true
  | _ :: _, [] => false
  | a :: as, b :: bs => if a = b then partsLe as bs else strLtB a b

/-- The order `list.sort()` uses on `Path` objects: lexicographic on the
component tuple. -/
def pathLe (a b : String) : Bool := partsLe (pathParts a) (pathParts b)

/-- Lines 18-36: glob then sort (ascending in `Path` order, i.e. by
component tuple). -/
def find_settings_files (paths : List String) : List String :=
  (paths.filter matchesPattern).mergeSort pathLe

/-! ### `extract_allow_permissions` (lines 39-63) -/

/-- Lines 39-63.  `loads` is `json.load` composed with the file read; a
`JSONDecodeError` is the `.error` case of the first match.  The dynamic
attribute errors of `data.get`/`permissions.get` and a `set()` argument
that is out of model fall into the generic `except Exception` branch at
line 61. -/
def extract_allow_permissions (loads : String → Except String Json)
    (path content : String) : Finset String × List Msg :=
  match loads content with
  | .error e => (∅, [Msg.parseErrorInput path e])
  | .ok data =>
      match data.getd "permissions" (Json.obj []) with
      | .error e => (∅, [Msg.readErrorInput path e])
      | .ok permissions =>
          match permissions.getd "allow" (Json.arr []) with
          | .error e => (∅, [Msg.readErrorInput path e])
          | .ok allow_list =>
              match allow_list.strSet with
              | none => (∅, [Msg.readErrorInput path "TypeError"])
              | some s => (s, [])

/-! ### `merge_permissions` (lines 66-92) -/

/-- Lines 66-92: union the extracted sets over all files; a per-file
progress message is printed only when the file's set is non-empty (Python
truthiness of `permissions` at line 81).  Path display (relative vs
absolute) is presentation-only and not modelled. -/
def mergeStep (loads : String → Except String Json)
    (acc : Finset String × List Msg) (pc : String × String) : Finset String × List Msg :=
  let r := extract_allow_permissions loads pc.1 pc.2
  if r.1 = ∅ then (acc.1, acc.2 ++ r.2)
  else (acc.1 ∪ r.1, acc.2 ++ r.2 ++ [Msg.foundPermissions r.1.card pc.1])

def merge_permissions (loads : String → Except String Json)
    (files : List (String × String)) : Finset String × List Msg :=
  files.foldl (mergeStep loads) (∅, [])

/-! ### `update_settings_file` (lines 95-182) -/

/-- Lines 131-138 under the inner `try`: test
`"permissions" in existing_settings and "allow" in
existing_settings["permissions"]` and take
`set(existing_settings["permissions"]["allow"])`.  Any raised exception is
the `.error` case (caught at line 140 by the caller). -/
def extractExistingAllow (d : Json) : Except String (Finset String × List Msg) :=
  match d.memTest "permissions" with
  | .error e => .error e
  | .ok hasP =>
      if hasP then
        match d.getItem "permissions" with
        | .error e => .error e
        | .ok p =>
            match p.memTest "allow" with
            | .error e => .error e
            | .ok hasA =>
                if hasA then
                  match p.getItem "allow" with
                  | .error e => .error e
                  | .ok a =>
                      match a.strSet with
                      | none => .error "TypeError"
                      | some s => .ok (s, [Msg.foundExisting s.card])
                else .ok (∅, [])
      else .ok (∅, [])

/-- Lines 109-147: read the existing output file.  Returns the state of
`(existing_settings, existing_allow)` after the inner `try/except`
together with the messages printed, in order.  The handler at line 140
catches every exception, keeping whatever was assigned before it was
raised — in particular, when both parses fail, `existing_settings` is
still the empty dict from line 106. -/
def readExistingBlock (loads : String → Except String Json) (content : String) :
    Json × Finset String × List Msg :=
  match loads content with
  | .ok d =>
      match extractExistingAllow d with
      | .ok (s, m) => (d, s, Msg.readingExisting :: m)
      | .error e => (d, ∅, [Msg.readingExisting, Msg.couldNotParseWarn e, Msg.warnWillPreserve])
  | .error _ =>
      match loads (fixTrailingCommas content) with
      | .ok d =>
          match extractExistingAllow d with
          | .ok (s, m) => (d, s, Msg.fixedTrailing :: Msg.readingExisting :: m)
          | .error e =>
              (d, ∅, [Msg.fixedTrailing, Msg.readingExisting,
                      Msg.couldNotParseWarn e, Msg.warnWillPreserve])
      | .error e2 =>
          (Json.obj [], ∅, [Msg.couldNotParseWarn e2, Msg.warnWillPreserve])

/-- Lines 149-178: the body after the read block.  Runs in `Except`: a
raised exception escapes to the handler at line 180 (exit 1). -/
def updateCore (settings0 : Json) (existing_allow permissions : Finset String) :
    Except String (Json × Finset String × List Msg) :=
  -- lines 149-151
  match settings0.memTest "permissions" with
  | .error e => .error e
  | .ok hasP =>
  match (if hasP then Except.ok settings0 else settings0.setItem "permissions" (Json.obj [])) with
  | .error e => .error e
  | .ok s1 =>
  -- lines 153-157
  let merged_allow := existing_allow ∪ permissions
  match s1.getItem "permissions" with
  | .error e => .error e
  | .ok p =>
  match p.setItem "allow" (Json.arr ((merged_allow.sort (· ≤ ·)).map Json.str)) with
  | .error e => .error e
  | .ok p1 =>
  match s1.setItem "permissions" p1 with
  | .error e => .error e
  | .ok s2 =>
  -- lines 159-163
  match s2.getItem "permissions" with
  | .error e => .error e
  | .ok p2 =>
  match p2.memTest "deny" with
  | .error e => .error e
  | .ok hasD =>
  match (if hasD then Except.ok s2 else
          match p2.setItem "deny" (Json.arr []) with
          | .error e => .error e
          | .ok p3 => s2.setItem "permissions" p3) with
  | .error e => .error e
  | .ok s3 =>
  match s3.getItem "permissions" with
  | .error e => .error e
  | .ok p4 =>
  match p4.memTest "ask" with
  | .error e => .error e
  | .ok hasA =>
  match (if hasA then Except.ok s3 else
          match p4.setItem "ask" (Json.arr []) with
          | .error e => .error e
          | .ok p5 => s3.setItem "permissions" p5) with
  | .error e => .error e
  | .ok s4 =>
  -- lines 170-178
  let new_permissions := permissions \ existing_allow
  .ok (s4, new_permissions,
    (if new_permissions = ∅ then [Msg.noNew] else [Msg.addedNew new_permissions.card])
      ++ [Msg.updatedOk merged_allow.card])

/-- The outcome of `update_settings_file`: the document written, the
`new_permissions` set of line 171 and the messages printed. -/
structure Written where
  doc : Json
  newPerms : Finset String
  msgs : List Msg

/-- Lines 95-182.  `existing` is the output file's state (`none` when
`output_path.exists()` is false).  `.error msgs` models the
`sys.exit(1)` at line 182. -/
def update_settings_file (loads : String → Except String Json)
    (existing : Option String) (permissions : Finset String) :
    Except (List Msg) Written :=
  let st :=
    match existing with
    | none => (Json.obj [], (∅ : Finset String), ([] : List Msg))
    | some content => readExistingBlock loads content
  match updateCore st.1 st.2.1 permissions with
  | .ok (doc, newP, report) => .ok ⟨doc, newP, st.2.2 ++ report⟩
  | .error e => .error (st.2.2 ++ [Msg.errorWriting e])

/-! ### `main` (lines 185-257) -/

/-- Final state of one run: exit code, the output file's content after the
run, and the messages printed.  The argument-parsing and root-directory
validation of lines 187-222 are out of scope (spec §1 non-goals). -/
structure RunResult where
  exitCode : Nat
  output : Option String
  msgs : List Msg

/-- Lines 224-257.  `fsys` lists the files under the root as
(relative path, content) pairs; `outContent` is the output file's state.
Early exits at lines 230-232 and 239-241 leave the output untouched; a
fatal `update_settings_file` (exit 1) also writes nothing. -/
def mainRun (loads : String → Except String Json)
    (fsys : List (String × String)) (outContent : Option String) : RunResult :=
  let files := find_settings_files (fsys.map Prod.fst)
  if files.isEmpty then ⟨0, outContent, [Msg.noFilesFound]⟩
  else
    let inputs := files.map (fun p => (p, (List.lookup p fsys).getD ""))
    let merged := merge_permissions loads inputs
    if merged.1 = ∅ then ⟨0, outContent, merged.2 ++ [Msg.noPermsFound]⟩
    else
      match update_settings_file loads outContent merged.1 with
      | .ok w => ⟨0, some (writtenContent w.doc), merged.2 ++ w.msgs⟩
      | .error m => ⟨1, outContent, merged.2 ++ m⟩

/-! ## Observers and well-formedness -/

/-- The JSON value at `permissions.allow` of a document, when the document
and its `permissions` field are objects. -/
def allowJson (d : Json) : Option Json :=
  match d with
  | .obj fs =>
      match Json.lookupList fs "permissions" with
      | some (.obj ps) => Json.lookupList ps "allow"
      | _ => none
  | _ => none

/-- The set of strings at `permissions.allow` (empty when absent). -/
def allowSetOf (d : Json) : Finset String :=
  ((allowJson d).bind Json.strSet).getD ∅

/-- A well-formed settings document: a JSON object whose `permissions`
field, when present, is an object whose `allow` field, when present, is an
array of strings (the shape the spec's data model prescribes, §3). -/
def wfDocB : Json → Bool
  | .obj fs =>
      match Json.lookupList fs "permissions" with
      | none => true
      | some (.obj ps) =>
          match Json.lookupList ps "allow" with
          | none => true
          | some al => al.strSet.isSome
      | some _ => false
  | _ => false

/-- The field `k` of the document's `permissions` object, if any. -/
def permsFieldVal (fs : List (String × Json)) (k : String) : Option Json :=
  match Json.lookupList fs "permissions" with
  | some (.obj ps) => Json.lookupList ps k
  | _ => none

/-- The document the writer's read step (lines 109-127) ends up parsing
from the pre-existing output content: the direct parse if it succeeds,
otherwise the parse of the comma-repaired text, otherwise none. -/
def parsedPrior (loads : String → Except String Json) (c : String) : Option Json :=
  match loads c with
  | .ok d => some d
  | .error _ =>
      match loads (fixTrailingCommas c) with
      | .ok d => some d
      | .error _ => none

/-- The `allow` entries of the pre-existing output file (empty when the
file is absent). -/
def priorAllowSet (loads : String → Except String Json) (outC : Option String) :
    Finset String :=
  match outC with
  | none => ∅
  | some c =>
      match parsedPrior loads c with
      | some d => allowSetOf d
      | none => ∅

/-- The pre-existing output file is either absent or parses (directly or
after comma repair) to a well-formed settings document. -/
def PriorOk (loads : String → Except String Json) (outC : Option String) : Prop :=
  match outC with
  | none => True
  | some c => ∃ d, parsedPrior loads c = some d ∧ wfDocB d = true

/-! ## Basic lemmas -/

@[simp] theorem exceptBindOk {ε α β : Type} (a : α) (f : α → Except ε β) :
    (Except.ok a >>= f) = f a := rfl

@[simp] theorem exceptBindErr {ε α β : Type} (e : ε) (f : α → Except ε β) :
    ((Except.error e : Except ε α) >>= f) = Except.error e := rfl

@[simp] theorem exceptPureEq {ε α : Type} (a : α) :
    (pure a : Except ε α) = Except.ok a := rfl

@[simp] theorem exceptMapOk {ε α β : Type} (g : α → β) (a : α) :
    (g <$> (Except.ok a : Except ε α)) = Except.ok (g a) := rfl

@[simp] theorem exceptMapErr {ε α β : Type} (g : α → β) (e : ε) :
    (g <$> (Except.error e : Except ε α)) = Except.error e := rfl

namespace Json

@[simp] theorem lookupList_setKey_self (fs : List (String × Json)) (k : String) (v : Json) :
    lookupList (setKey fs k v) k = some v := by
  induction fs with
  | nil => simp [setKey, lookupList]
  | cons f fs ih =>
      obtain ⟨k', w⟩ := f
      by_cases h : k' = k <;> simp [setKey, lookupList, h, ih]

@[simp] theorem lookupList_setKey_ne (fs : List (String × Json)) (k k' : String) (v : Json)
    (h : k' ≠ k) : lookupList (setKey fs k v) k' = lookupList fs k' := by
  induction fs with
  | nil => simp [setKey, lookupList, Ne.symm h]
  | cons f fs ih =>
      obtain ⟨k'', w⟩ := f
      by_cases h2 : k'' = k
      · subst h2; simp [setKey, lookupList, Ne.symm h]
      · simp only [setKey, if_neg h2, lookupList]
        split
        · rfl
        · exact ih

theorem setKey_setKey_self (fs : List (String × Json)) (k : String) (v w : Json) :
    setKey (setKey fs k v) k w = setKey fs k w := by
  induction fs with
  | nil => simp [setKey]
  | cons f fs ih =>
      obtain ⟨k', u⟩ := f
      by_cases h : k' = k <;> simp [setKey, h, ih]

@[simp] theorem asStrList_map_str (l : List String) :
    asStrList (l.map Json.str) = some l := by
  induction l with
  | nil => simp [asStrList]
  | cons s l ih => simp [asStrList, ih]

@[simp] theorem strSet_arr_map_str (l : List String) :
    strSet (Json.arr (l.map Json.str)) = some l.toFinset := by
  simp [strSet]

end Json

/-- The allow array the writer stores: the sorted list of the merged set. -/
def sortedAllowArr (S : Finset String) : Json :=
  Json.arr ((S.sort (· ≤ ·)).map Json.str)

/-- The report messages of lines 170-178. -/
def updReport (a P : Finset String) : List Msg :=
  (if P \ a = ∅ then [Msg.noNew] else [Msg.addedNew (P \ a).card])
    ++ [Msg.updatedOk (a ∪ P).card]

@[simp] theorem strSet_sortedAllowArr (S : Finset String) :
    Json.strSet (sortedAllowArr S) = some S := by
  simp [sortedAllowArr]

theorem updateCore_absent_spec (fs : List (String × Json)) (a P : Finset String)
    (hp : Json.lookupList fs "permissions" = none) :
    updateCore (Json.obj fs) a P =
      .ok (Json.obj (Json.setKey fs "permissions" (Json.obj
            [("allow", sortedAllowArr (a ∪ P)), ("deny", Json.arr []), ("ask", Json.arr [])])),
           P \ a, updReport a P) := by
  simp [updateCore, Json.memTest, Json.containsKey, hp, Json.setItem, Json.getItem,
    Json.lookupList, Json.setKey, Json.setKey_setKey_self, sortedAllowArr, updReport]

theorem updateCore_present_spec (fs ps0 : List (String × Json)) (a P : Finset String)
    (hp : Json.lookupList fs "permissions" = some (Json.obj ps0)) :
    ∃ ps3, updateCore (Json.obj fs) a P =
        .ok (Json.obj (Json.setKey fs "permissions" (Json.obj ps3)), P \ a, updReport a P)
      ∧ Json.lookupList ps3 "allow" = some (sortedAllowArr (a ∪ P))
      ∧ Json.lookupList ps3 "deny" = some ((Json.lookupList ps0 "deny").getD (Json.arr []))
      ∧ Json.lookupList ps3 "ask" = some ((Json.lookupList ps0 "ask").getD (Json.arr [])) := by
  rcases h1 : Json.lookupList ps0 "deny" with _ | dv <;>
    rcases h2 : Json.lookupList ps0 "ask" with _ | av
  · refine ⟨Json.setKey (Json.setKey (Json.setKey ps0 "allow" (sortedAllowArr (a ∪ P)))
      "deny" (Json.arr [])) "ask" (Json.arr []), ?_, ?_, ?_, ?_⟩ <;>
      simp [updateCore, Json.memTest, Json.containsKey, hp, h1, h2, Json.setItem,
        Json.getItem, Json.setKey_setKey_self, sortedAllowArr, updReport]
  · refine ⟨Json.setKey (Json.setKey ps0 "allow" (sortedAllowArr (a ∪ P)))
      "deny" (Json.arr []), ?_, ?_, ?_, ?_⟩ <;>
      simp [updateCore, Json.memTest, Json.containsKey, hp, h1, h2, Json.setItem,
        Json.getItem, Json.setKey_setKey_self, sortedAllowArr, updReport]
  · refine ⟨Json.setKey (Json.setKey ps0 "allow" (sortedAllowArr (a ∪ P)))
      "ask" (Json.arr []), ?_, ?_, ?_, ?_⟩ <;>
      simp [updateCore, Json.memTest, Json.containsKey, hp, h1, h2, Json.setItem,
        Json.getItem, Json.setKey_setKey_self, sortedAllowArr, updReport]
  · refine ⟨Json.setKey ps0 "allow" (sortedAllowArr (a ∪ P)), ?_, ?_, ?_, ?_⟩ <;>
      simp [updateCore, Json.memTest, Json.containsKey, hp, h1, h2, Json.setItem,
        Json.getItem, Json.setKey_setKey_self, sortedAllowArr, updReport]

theorem updateCore_spec (fs : List (String × Json)) (a P : Finset String)
    (hp : Json.lookupList fs "permissions" = none
          ∨ ∃ ps0, Json.lookupList fs "permissions" = some (Json.obj ps0)) :
    ∃ ps3, updateCore (Json.obj fs) a P =
        .ok (Json.obj (Json.setKey fs "permissions" (Json.obj ps3)), P \ a, updReport a P)
      ∧ Json.lookupList ps3 "allow" = some (sortedAllowArr (a ∪ P))
      ∧ Json.lookupList ps3 "deny" = some ((permsFieldVal fs "deny").getD (Json.arr []))
      ∧ Json.lookupList ps3 "ask" = some ((permsFieldVal fs "ask").getD (Json.arr [])) := by
  rcases hp with hp | ⟨ps0, hp⟩
  · exact ⟨_, updateCore_absent_spec fs a P hp, by simp [Json.lookupList],
      by simp [Json.lookupList, permsFieldVal, hp],
      by simp [Json.lookupList, permsFieldVal, hp]⟩
  · obtain ⟨ps3, heq, ha, hd, hk⟩ := updateCore_present_spec fs ps0 a P hp
    exact ⟨ps3, heq, ha, by simpa [permsFieldVal, hp] using hd,
      by simpa [permsFieldVal, hp] using hk⟩


theorem updateCore_null (a P : Finset String) :
    updateCore Json.null a P = Except.error "TypeError" := rfl

theorem updateCore_boolShape (b : Bool) (a P : Finset String) :
    updateCore (Json.bool b) a P = Except.error "TypeError" := rfl

theorem updateCore_num (i : Int) (a P : Finset String) :
    updateCore (Json.num i) a P = Except.error "TypeError" := rfl

theorem updateCore_str (s : String) (a P : Finset String) :
    updateCore (Json.str s) a P = Except.error "TypeError" := by
  unfold updateCore
  simp only [Json.memTest]
  cases hc : Json.hasSub "permissions".data s.data <;>
    first
    | rfl
    | (simp only [hc]; rfl)
    | (rw [hc]; rfl)

theorem updateCore_arrShape (xs : List Json) (a P : Finset String) :
    updateCore (Json.arr xs) a P = Except.error "TypeError" := by
  unfold updateCore
  simp only [Json.memTest]
  cases hc : xs.any (fun x =>
      match x with
      | Json.str s => decide (s = "permissions")
      | _ => false) <;>
    first
    | rfl
    | (simp only [hc]; rfl)
    | (rw [hc]; rfl)

theorem updateCore_objBad (fs : List (String × Json)) (v : Json) (a P : Finset String)
    (hl : Json.lookupList fs "permissions" = some v) (hv : ∀ ps, v ≠ Json.obj ps) :
    updateCore (Json.obj fs) a P = Except.error "TypeError" := by
  unfold updateCore
  simp only [Json.memTest, Json.containsKey, hl, Option.isSome_some, if_pos, Json.getItem]
  cases v with
  | obj ps => exact absurd rfl (hv ps)
  | null => rfl
  | bool b => rfl
  | num i => rfl
  | str s => rfl
  | arr ys => rfl

theorem updateCore_ok_inv (s0 : Json) (a P : Finset String)
    (doc : Json) (n : Finset String) (r : List Msg)
    (h : updateCore s0 a P = .ok (doc, n, r)) :
    allowJson doc = some (sortedAllowArr (a ∪ P)) ∧ n = P \ a ∧ r = updReport a P := by
  have hgood : ∃ fs, s0 = Json.obj fs
      ∧ (Json.lookupList fs "permissions" = none
         ∨ ∃ ps0, Json.lookupList fs "permissions" = some (Json.obj ps0)) := by
    cases s0 with
    | null => rw [updateCore_null] at h; cases h
    | bool b => rw [updateCore_boolShape] at h; cases h
    | num i => rw [updateCore_num] at h; cases h
    | str s => rw [updateCore_str] at h; cases h
    | arr xs => rw [updateCore_arrShape] at h; cases h
    | obj fs =>
        refine ⟨fs, rfl, ?_⟩
        rcases hl : Json.lookupList fs "permissions" with _ | v
        · exact Or.inl rfl
        · cases v with
          | obj ps0 => exact Or.inr ⟨ps0, rfl⟩
          | null => rw [updateCore_objBad fs _ a P hl (by intro ps hcon; cases hcon)] at h; cases h
          | bool b => rw [updateCore_objBad fs _ a P hl (by intro ps hcon; cases hcon)] at h; cases h
          | num i => rw [updateCore_objBad fs _ a P hl (by intro ps hcon; cases hcon)] at h; cases h
          | str s => rw [updateCore_objBad fs _ a P hl (by intro ps hcon; cases hcon)] at h; cases h
          | arr ys => rw [updateCore_objBad fs _ a P hl (by intro ps hcon; cases hcon)] at h; cases h
  obtain ⟨fs, rfl, hp⟩ := hgood
  obtain ⟨ps3, heq, ha, _, _⟩ := updateCore_spec fs a P hp
  rw [heq] at h
  obtain ⟨h1, h2, h3⟩ : doc = Json.obj (Json.setKey fs "permissions" (Json.obj ps3))
      ∧ n = P \ a ∧ r = updReport a P := by
    cases h; exact ⟨rfl, rfl, rfl⟩
  subst h1 h2 h3
  exact ⟨by simp [allowJson, ha], rfl, rfl⟩

theorem extractExistingAllow_spec (d : Json) (hwf : wfDocB d = true) :
    ∃ m, extractExistingAllow d = .ok (allowSetOf d, m) := by
  cases d with
  | obj fs =>
      rcases hl : Json.lookupList fs "permissions" with _ | v
      · refine ⟨[], ?_⟩
        simp [extractExistingAllow, Json.memTest, Json.containsKey, hl, allowSetOf, allowJson]
      · cases v with
        | obj ps =>
            rcases ha : Json.lookupList ps "allow" with _ | al
            · refine ⟨[], ?_⟩
              simp [extractExistingAllow, Json.memTest, Json.containsKey, hl, ha,
                Json.getItem, allowSetOf, allowJson]
            · have hs : ∃ s, al.strSet = some s := by
                have := hwf
                simp only [wfDocB, hl, ha] at this
                exact Option.isSome_iff_exists.mp this
              obtain ⟨s, hs⟩ := hs
              refine ⟨[Msg.foundExisting s.card], ?_⟩
              simp [extractExistingAllow, Json.memTest, Json.containsKey, hl, ha,
                Json.getItem, hs, allowSetOf, allowJson]
        | null => simp [wfDocB, hl] at hwf
        | bool b => simp [wfDocB, hl] at hwf
        | num i => simp [wfDocB, hl] at hwf
        | str s => simp [wfDocB, hl] at hwf
        | arr ys => simp [wfDocB, hl] at hwf
  | null => simp [wfDocB] at hwf
  | bool b => simp [wfDocB] at hwf
  | num i => simp [wfDocB] at hwf
  | str s => simp [wfDocB] at hwf
  | arr ys => simp [wfDocB] at hwf

theorem readExistingBlock_spec (loads : String → Except String Json) (c : String) (d : Json)
    (hpp : parsedPrior loads c = some d) (hwf : wfDocB d = true) :
    ∃ m, readExistingBlock loads c = (d, allowSetOf d, m)
      ∧ ((∃ e, loads c = .error e) → Msg.fixedTrailing ∈ m) := by
  obtain ⟨m0, hex⟩ := extractExistingAllow_spec d hwf
  rcases hl : loads c with e | d'
  · rcases hl2 : loads (fixTrailingCommas c) with e2 | d2
    · simp [parsedPrior, hl, hl2] at hpp
    · have hd : d2 = d := by simp [parsedPrior, hl, hl2] at hpp; exact hpp
      subst hd
      refine ⟨Msg.fixedTrailing :: Msg.readingExisting :: m0, ?_, ?_⟩
      · simp [readExistingBlock, hl, hl2, hex]
      · intro _; simp
  · have hd : d' = d := by simp [parsedPrior, hl] at hpp; exact hpp
    subst hd
    refine ⟨Msg.readingExisting :: m0, ?_, ?_⟩
    · simp [readExistingBlock, hl, hex]
    · rintro ⟨e, he⟩
      simp at he

theorem readExistingBlock_fail (loads : String → Except String Json) (c : String)
    (e1 e2 : String) (h1 : loads c = .error e1)
    (h2 : loads (fixTrailingCommas c) = .error e2) :
    readExistingBlock loads c =
      (Json.obj [], ∅, [Msg.couldNotParseWarn e2, Msg.warnWillPreserve]) := by
  simp [readExistingBlock, h1, h2]

theorem wfDocB_shape (d : Json) (hwf : wfDocB d = true) :
    ∃ fs, d = Json.obj fs
      ∧ (Json.lookupList fs "permissions" = none
         ∨ ∃ ps0, Json.lookupList fs "permissions" = some (Json.obj ps0)) := by
  cases d with
  | obj fs =>
      refine ⟨fs, rfl, ?_⟩
      rcases hl : Json.lookupList fs "permissions" with _ | v
      · exact Or.inl rfl
      · cases v with
        | obj ps0 => exact Or.inr ⟨ps0, rfl⟩
        | null => simp [wfDocB, hl] at hwf
        | bool b => simp [wfDocB, hl] at hwf
        | num i => simp [wfDocB, hl] at hwf
        | str s => simp [wfDocB, hl] at hwf
        | arr ys => simp [wfDocB, hl] at hwf
  | null => simp [wfDocB] at hwf
  | bool b => simp [wfDocB] at hwf
  | num i => simp [wfDocB] at hwf
  | str s => simp [wfDocB] at hwf
  | arr ys => simp [wfDocB] at hwf

theorem wfDocB_setKey_perms (fs ps3 : List (String × Json)) (S : Finset String)
    (ha : Json.lookupList ps3 "allow" = some (sortedAllowArr S)) :
    wfDocB (Json.obj (Json.setKey fs "permissions" (Json.obj ps3))) = true := by
  simp [wfDocB, ha]

/-- Master specification of `update_settings_file` when the pre-existing
output file is absent or parses (directly or after repair) to a
well-formed document. -/
theorem update_settings_file_spec (loads : String → Except String Json)
    (existing : Option String) (P : Finset String) (hp : PriorOk loads existing) :
    ∃ w, update_settings_file loads existing P = .ok w
      ∧ allowJson w.doc = some (sortedAllowArr (priorAllowSet loads existing ∪ P))
      ∧ allowSetOf w.doc = priorAllowSet loads existing ∪ P
      ∧ wfDocB w.doc = true
      ∧ w.newPerms = P \ priorAllowSet loads existing
      ∧ (P \ priorAllowSet loads existing = ∅ → Msg.noNew ∈ w.msgs)
      ∧ (∀ c, existing = some c → (∃ e, loads c = .error e) → Msg.fixedTrailing ∈ w.msgs) := by
  cases existing with
  | none =>
      have habs := updateCore_absent_spec [] ∅ P (by simp [Json.lookupList])
      have hupd : update_settings_file loads none P =
          .ok ⟨Json.obj (Json.setKey [] "permissions" (Json.obj
               [("allow", sortedAllowArr (∅ ∪ P)), ("deny", Json.arr []), ("ask", Json.arr [])])),
               P \ ∅, [] ++ updReport ∅ P⟩ := by
        simp only [update_settings_file, habs]
      refine ⟨_, hupd, ?_, ?_, ?_, ?_, ?_, ?_⟩
      · simp [allowJson, Json.setKey, Json.lookupList, priorAllowSet]
      · simp [allowSetOf, allowJson, Json.setKey, Json.lookupList, priorAllowSet]
      · simp [wfDocB, Json.setKey, Json.lookupList]
      · simp [priorAllowSet]
      · intro h
        simp only [priorAllowSet, Finset.sdiff_empty] at h ⊢
        simp [updReport, h]
      · intro c hc; cases hc
  | some c =>
      obtain ⟨d, hpp, hwf⟩ := hp
      obtain ⟨m, hrb, hfix⟩ := readExistingBlock_spec loads c d hpp hwf
      obtain ⟨fs, rfl, hshape⟩ := wfDocB_shape d hwf
      obtain ⟨ps3, heq, ha, hd, hk⟩ := updateCore_spec fs (allowSetOf (Json.obj fs)) P hshape
      have hps : priorAllowSet loads (some c) = allowSetOf (Json.obj fs) := by
        simp [priorAllowSet, hpp]
      have hupd : update_settings_file loads (some c) P =
          .ok ⟨Json.obj (Json.setKey fs "permissions" (Json.obj ps3)),
               P \ allowSetOf (Json.obj fs),
               m ++ updReport (allowSetOf (Json.obj fs)) P⟩ := by
        simp only [update_settings_file, hrb, heq]
      refine ⟨_, hupd, ?_, ?_, ?_, ?_, ?_, ?_⟩
      · simp [allowJson, ha, hps]
      · simp [allowSetOf, allowJson, ha, hps]
      · exact wfDocB_setKey_perms fs ps3 _ ha
      · simp [hps]
      · intro h
        rw [hps] at h
        simp [updReport, h]
      · intro c2 hc2 hce
        obtain hc2' : c2 = c := by cases hc2; rfl
        subst hc2'
        exact List.mem_append.mpr (Or.inl (hfix hce))

theorem foldl_mergeStep_fst_mem (loads : String → Except String Json)
    (files : List (String × String)) :
    ∀ (acc : Finset String × List Msg) (s : String),
      s ∈ (files.foldl (mergeStep loads) acc).1
        ↔ s ∈ acc.1 ∨ ∃ pc ∈ files, s ∈ (extract_allow_permissions loads pc.1 pc.2).1 := by
  induction files with
  | nil => intro acc s; simp
  | cons pc files ih =>
      intro acc s
      rw [List.foldl_cons, ih]
      by_cases h : (extract_allow_permissions loads pc.1 pc.2).1 = ∅
      · simp [mergeStep, h]
      · simp [mergeStep, h, Finset.mem_union]
        tauto

/-- Membership in the merged permission set. -/
theorem merge_permissions_mem (loads : String → Except String Json)
    (files : List (String × String)) (s : String) :
    s ∈ (merge_permissions loads files).1
      ↔ ∃ pc ∈ files, s ∈ (extract_allow_permissions loads pc.1 pc.2).1 := by
  rw [merge_permissions, foldl_mergeStep_fst_mem]
  simp

theorem foldl_mergeStep_msgs_mono (loads : String → Except String Json)
    (files : List (String × String)) :
    ∀ (acc : Finset String × List Msg) (m : Msg),
      m ∈ acc.2 → m ∈ (files.foldl (mergeStep loads) acc).2 := by
  induction files with
  | nil => intro acc m hm; simpa using hm
  | cons pc files ih =>
      intro acc m hm
      rw [List.foldl_cons]
      refine ih _ m ?_
      by_cases h : (extract_allow_permissions loads pc.1 pc.2).1 = ∅ <;>
        simp [mergeStep, h, hm]

theorem foldl_mergeStep_msgs_of_file (loads : String → Except String Json)
    (files : List (String × String)) :
    ∀ (acc : Finset String × List Msg) (pc : String × String), pc ∈ files →
      ∀ m ∈ (extract_allow_permissions loads pc.1 pc.2).2,
        m ∈ (files.foldl (mergeStep loads) acc).2 := by
  induction files with
  | nil => intro acc pc h; cases h
  | cons qc files ih =>
      intro acc pc hpc m hm
      rw [List.foldl_cons]
      rcases List.mem_cons.mp hpc with rfl | htail
      · refine foldl_mergeStep_msgs_mono loads files _ m ?_
        by_cases h : (extract_allow_permissions loads pc.1 pc.2).1 = ∅ <;>
          simp [mergeStep, h, hm]
      · exact ih _ pc htail m hm

/-- Every diagnostic of every file's extraction is among the merge's
messages. -/
theorem merge_permissions_msgs (loads : String → Except String Json)
    (files : List (String × String)) (pc : String × String) (hpc : pc ∈ files)
    (m : Msg) (hm : m ∈ (extract_allow_permissions loads pc.1 pc.2).2) :
    m ∈ (merge_permissions loads files).2 :=
  foldl_mergeStep_msgs_of_file loads files _ pc hpc m hm

theorem find_settings_files_mem (paths : List String) (p : String) :
    p ∈ find_settings_files paths ↔ p ∈ paths ∧ matchesPattern p = true := by
  simp [find_settings_files, List.mem_mergeSort, List.mem_filter]

theorem charsLt_irrefl : ∀ x : List Char, charsLt x x = false := by
  intro x
  induction x with
  | nil => rfl
  | cons a as ih => simp [charsLt, ih]

theorem charsLt_trans : ∀ x y z : List Char,
    charsLt x y = true → charsLt y z = true → charsLt x z = true := by
  intro x
  induction x with
  | nil =>
      intro y z hxy hyz
      cases y with
      | nil => simp [charsLt] at hxy
      | cons b bs =>
          cases z with
          | nil => simp [charsLt] at hyz
          | cons c cs => rfl
  | cons a as ih =>
      intro y z hxy hyz
      cases y with
      | nil => simp [charsLt] at hxy
      | cons b bs =>
          cases z with
          | nil => simp [charsLt] at hyz
          | cons c cs =>
              by_cases hab : a = b <;> by_cases hbc : b = c
              · subst hab hbc
                simp only [charsLt, if_pos rfl] at hxy hyz ⊢
                exact ih bs cs hxy hyz
              · subst hab
                simp only [charsLt, if_neg hbc] at hyz ⊢
                exact hyz
              · subst hbc
                simp only [charsLt, if_neg hab] at hxy ⊢
                exact hxy
              · simp only [charsLt, if_neg hab, decide_eq_true_eq] at hxy
                simp only [charsLt, if_neg hbc, decide_eq_true_eq] at hyz
                have hac : a < c := lt_trans hxy hyz
                simp only [charsLt, if_neg (ne_of_lt hac), decide_eq_true_eq]
                exact hac

theorem charsLt_total_of_ne : ∀ x y : List Char, x ≠ y →
    (charsLt x y || charsLt y x) = true := by
  intro x
  induction x with
  | nil =>
      intro y hne
      cases y with
      | nil => exact absurd rfl hne
      | cons b bs => rfl
  | cons a as ih =>
      intro y hne
      cases y with
      | nil => simp [charsLt]
      | cons b bs =>
          by_cases hab : a = b
          · subst hab
            simp only [charsLt, if_pos rfl]
            refine ih bs ?_
            intro hcon
            exact hne (by rw [hcon])
          · simp only [charsLt, if_neg hab, if_neg (Ne.symm hab), Bool.or_eq_true,
              decide_eq_true_eq]
            exact lt_or_gt_of_ne hab

theorem strLtB_trans (a b c : String) (h1 : strLtB a b = true) (h2 : strLtB b c = true) :
    strLtB a c = true :=
  charsLt_trans a.data b.data c.data h1 h2

theorem strLtB_ne (a b : String) (h : strLtB a b = true) : a ≠ b := by
  intro hcon
  subst hcon
  rw [strLtB, charsLt_irrefl] at h
  cases h

theorem strLtB_total_of_ne (a b : String) (hne : a ≠ b) :
    (strLtB a b || strLtB b a) = true := by
  refine charsLt_total_of_ne a.data b.data ?_
  intro hcon
  refine hne ?_
  cases a
  cases b
  exact congrArg String.mk hcon

theorem partsLe_trans : ∀ x y z : List String,
    partsLe x y = true → partsLe y z = true → partsLe x z = true := by
  intro x
  induction x with
  | nil => intro y z _ _; rfl
  | cons a as ih =>
      intro y z hxy hyz
      cases y with
      | nil => simp [partsLe] at hxy
      | cons b bs =>
          cases z with
          | nil => simp [partsLe] at hyz
          | cons c cs =>
              by_cases hab : a = b <;> by_cases hbc : b = c
              · subst hab hbc
                simp only [partsLe, if_pos rfl] at hxy hyz ⊢
                exact ih bs cs hxy hyz
              · subst hab
                simp only [partsLe, if_neg hbc] at hyz ⊢
                exact hyz
              · subst hbc
                simp only [partsLe, if_neg hab] at hxy ⊢
                exact hxy
              · simp only [partsLe, if_neg hab] at hxy
                simp only [partsLe, if_neg hbc] at hyz
                have hac : strLtB a c = true := strLtB_trans a b c hxy hyz
                simp only [partsLe, if_neg (strLtB_ne a c hac)]
                exact hac

theorem partsLe_total : ∀ x y : List String, partsLe x y || partsLe y x := by
  intro x
  induction x with
  | nil => intro y; simp [partsLe]
  | cons a as ih =>
      intro y
      cases y with
      | nil => simp [partsLe]
      | cons b bs =>
          by_cases hab : a = b
          · subst hab
            simp only [partsLe, if_pos rfl]
            exact ih bs
          · simp only [partsLe, if_neg hab, if_neg (Ne.symm hab)]
            exact strLtB_total_of_ne a b hab

/-- The discovered list is sorted in `Path` order (ascending by component
tuple). -/
theorem find_settings_files_sorted (paths : List String) :
    (find_settings_files paths).Pairwise (fun a b => pathLe a b = true) := by
  have h := @List.sorted_mergeSort String pathLe
    (fun a b c h1 h2 => partsLe_trans _ _ _ h1 h2)
    (fun a b => partsLe_total _ _)
    (paths.filter matchesPattern)
  rw [find_settings_files]
  exact h

theorem natReprAux_getLast (n : Nat) :
    ∀ acc : List Char, acc ≠ [] → (natReprAux n acc).getLast? = acc.getLast? := by
  induction n using Nat.strong_induction_on with
  | _ n ih =>
      intro acc hacc
      match n with
      | 0 => rw [natReprAux]
      | k + 1 =>
          rw [natReprAux]
          rw [ih ((k + 1) / 10) (Nat.div_lt_self (Nat.succ_pos k) (by omega)) _ (by simp)]
          cases acc with
          | nil => exact absurd rfl hacc
          | cons a l => simp [List.getLast?_cons_cons]

theorem getLast?_cons_of_ne {α : Type} (a : α) (l : List α) (h : l ≠ []) :
    (a :: l).getLast? = l.getLast? := by
  cases l with
  | nil => exact absurd rfl h
  | cons b l => simp [List.getLast?_cons_cons]

theorem natRepr_getLast (n : Nat) :
    ∃ m, m < 10 ∧ (natRepr n).getLast? = some (Nat.digitChar m) := by
  match n with
  | 0 => exact ⟨0, by omega, rfl⟩
  | k + 1 =>
      refine ⟨(k + 1) % 10, Nat.mod_lt _ (by omega), ?_⟩
      rw [natRepr, if_neg (by omega), natReprAux,
        natReprAux_getLast _ _ (by simp)]
      rfl

theorem natRepr_ne_nil (n : Nat) : natRepr n ≠ [] := by
  obtain ⟨m, _, h⟩ := natRepr_getLast n
  intro hnil
  rw [hnil] at h
  cases h

theorem intRepr_getLast (i : Int) :
    ∃ m, m < 10 ∧ (intRepr i).getLast? = some (Nat.digitChar m) := by
  obtain ⟨m, hm, h⟩ := natRepr_getLast i.natAbs
  by_cases hneg : i < 0
  · exact ⟨m, hm, by rw [intRepr, if_pos hneg, getLast?_cons_of_ne _ _ (natRepr_ne_nil _), h]⟩
  · exact ⟨m, hm, by rw [intRepr, if_neg hneg, h]⟩

theorem digitChar_ne_newline (m : Nat) (h : m < 10) : Nat.digitChar m ≠ '\x0a' := by
  interval_cases m <;> decide

theorem dumpsVal_getLast_ne_nl (j : Json) (ind : Nat) :
    (dumpsVal j ind).getLast? ≠ some '\x0a' := by
  cases j with
  | null =>
      show (['n', 'u', 'l', 'l'] : List Char).getLast? ≠ some '\x0a'
      decide
  | bool b =>
      cases b
      · show (['f', 'a', 'l', 's', 'e'] : List Char).getLast? ≠ some '\x0a'
        decide
      · show (['t', 'r', 'u', 'e'] : List Char).getLast? ≠ some '\x0a'
        decide
  | num i =>
      obtain ⟨m, hm, h⟩ := intRepr_getLast i
      rw [dumpsVal, h]
      simp [digitChar_ne_newline m hm]
  | str s =>
      rw [dumpsVal, strLit, getLast?_cons_of_ne _ _ (by simp), List.getLast?_concat]
      decide
  | arr xs =>
      cases xs with
      | nil =>
          show (['[', ']'] : List Char).getLast? ≠ some '\x0a'
          decide
      | cons x xs =>
          rw [dumpsVal]
          have he : '[' :: '\x0a' ::
              (dumpsItems (x :: xs) (ind + 2) ++ '\x0a' :: (spaces ind ++ [']'])) =
              ('[' :: '\x0a' :: (dumpsItems (x :: xs) (ind + 2) ++ '\x0a' :: spaces ind))
                ++ [']'] := by
            simp
          rw [he, List.getLast?_concat]
          decide
  | obj fs =>
      cases fs with
      | nil =>
          show (['\x7b', '\x7d'] : List Char).getLast? ≠ some '\x0a'
          decide
      | cons f fs =>
          rw [dumpsVal]
          have he : '\x7b' :: '\x0a' ::
              (dumpsFields (f :: fs) (ind + 2) ++ '\x0a' :: (spaces ind ++ ['\x7d'])) =
              ('\x7b' :: '\x0a' :: (dumpsFields (f :: fs) (ind + 2) ++ '\x0a' :: spaces ind))
                ++ ['\x7d'] := by
            simp
          rw [he, List.getLast?_concat]
          decide

/-- The serialized document never ends in a newline, so the written file
content ends in exactly one newline. -/
theorem dumps_data_getLast_ne_nl (j : Json) : (dumps j).data.getLast? ≠ some '\x0a' :=
  dumpsVal_getLast_ne_nl j 0

/-- The discovered input list of a run: the found paths paired with their
contents. -/
def runInputs (fsys : List (String × String)) : List (String × String) :=
  (find_settings_files (fsys.map Prod.fst)).map
    (fun p => (p, (List.lookup p fsys).getD ""))

theorem mainRun_writes (loads : String → Except String Json)
    (fsys : List (String × String)) (outC : Option String) (w : Written)
    (hfiles : find_settings_files (fsys.map Prod.fst) ≠ [])
    (hupd : update_settings_file loads outC (merge_permissions loads (runInputs fsys)).1 = .ok w)
    (hperms : (merge_permissions loads (runInputs fsys)).1 ≠ ∅) :
    mainRun loads fsys outC =
      ⟨0, some (writtenContent w.doc), (merge_permissions loads (runInputs fsys)).2 ++ w.msgs⟩ := by
  have hfe : (find_settings_files (fsys.map Prod.fst)).isEmpty = false := by
    cases hfi : find_settings_files (fsys.map Prod.fst) with
    | nil => exact absurd hfi hfiles
    | cons a l => rfl
  rw [mainRun]
  simp only [hfe, Bool.false_eq_true, if_false, runInputs] at *
  rw [if_neg hperms, hupd]

theorem mainRun_skips (loads : String → Except String Json)
    (fsys : List (String × String)) (outC : Option String)
    (h : find_settings_files (fsys.map Prod.fst) = []
         ∨ (merge_permissions loads (runInputs fsys)).1 = ∅) :
    (mainRun loads fsys outC).exitCode = 0
    ∧ (mainRun loads fsys outC).output = outC
    ∧ (Msg.noFilesFound ∈ (mainRun loads fsys outC).msgs
       ∨ Msg.noPermsFound ∈ (mainRun loads fsys outC).msgs) := by
  by_cases hfi : find_settings_files (fsys.map Prod.fst) = []
  · rw [mainRun]
    simp [hfi]
  · have hfe : (find_settings_files (fsys.map Prod.fst)).isEmpty = false := by
      cases hc : find_settings_files (fsys.map Prod.fst) with
      | nil => exact absurd hc hfi
      | cons a l => rfl
    have hperm : (merge_permissions loads (runInputs fsys)).1 = ∅ := by
      rcases h with h | h
      · exact absurd h hfi
      · exact h
    rw [mainRun]
    simp only [hfe, Bool.false_eq_true, if_false, runInputs] at *
    rw [if_pos hperm]
    simp

theorem allowSetOf_of_allowJson (d : Json) (S : Finset String)
    (h : allowJson d = some (sortedAllowArr S)) : allowSetOf d = S := by
  simp [allowSetOf, h]

/-- C7: when no input files are discovered, or no permissions are
extracted from any discovered file, the run prints an informational
message and exits 0 without touching the output file. -/
theorem claim_c7 (loads : String → Except String Json)
    (fsys : List (String × String)) (outC : Option String)
    (h : find_settings_files (fsys.map Prod.fst) = []
         ∨ (merge_permissions loads (runInputs fsys)).1 = ∅) :
    (mainRun loads fsys outC).exitCode = 0
    ∧ (mainRun loads fsys outC).output = outC
    ∧ (Msg.noFilesFound ∈ (mainRun loads fsys outC).msgs
       ∨ Msg.noPermsFound ∈ (mainRun loads fsys outC).msgs) :=
  mainRun_skips loads fsys outC h

/-- C7 witness: an empty filesystem and an untouched existing output. -/
theorem claim_c7_witness :
    (find_settings_files (([] : List (String × String)).map Prod.fst) = []
     ∨ (merge_permissions (fun _ => Except.error "e") (runInputs [])).1 = ∅)
    ∧ ((mainRun (fun _ => Except.error "e") [] (some "x")).exitCode = 0
       ∧ (mainRun (fun _ => Except.error "e") [] (some "x")).output = some "x"
       ∧ (Msg.noFilesFound ∈ (mainRun (fun _ => Except.error "e") [] (some "x")).msgs
          ∨ Msg.noPermsFound ∈ (mainRun (fun _ => Except.error "e") [] (some "x")).msgs)) :=
  ⟨Or.inl List.mergeSort_nil,
   claim_c7 (fun _ => Except.error "e") [] (some "x") (Or.inl List.mergeSort_nil)⟩

unseal List.merge List.mergeSort in
/-- C9 counterexample: the discovered list is not sorted ascending by
path string.  `list.sort()` at line 34 compares `Path` objects by
component tuple, so `foo/sub/…` sorts before `foo-bar/…`, although as raw
strings `"foo-bar/…" < "foo/sub/…"` (`-` is 0x2d, below `/` = 0x2f). -/
theorem claim_c9_counterexample :
    find_settings_files
        ["foo-bar/.claude/settings.local.json", "foo/sub/.claude/settings.local.json"]
      = ["foo/sub/.claude/settings.local.json", "foo-bar/.claude/settings.local.json"]
    ∧ ¬ (find_settings_files
        ["foo-bar/.claude/settings.local.json",
         "foo/sub/.claude/settings.local.json"]).Sorted (· ≤ ·) := by
  have h : find_settings_files
      ["foo-bar/.claude/settings.local.json", "foo/sub/.claude/settings.local.json"]
      = ["foo/sub/.claude/settings.local.json", "foo-bar/.claude/settings.local.json"] := by
    decide
  refine ⟨h, ?_⟩
  rw [h]
  intro hs
  have hle : ("foo/sub/.claude/settings.local.json" : String)
      ≤ "foo-bar/.claude/settings.local.json" :=
    List.rel_of_sorted_cons hs _ (by simp)
  rw [String.le_iff_toList_le] at hle
  exact absurd hle (by decide)

/-- C9 (amended): the discoverer returns exactly the paths matching
`**/.claude/settings.local.json`, sorted ascending in `Path` order —
lexicographically by `/`-component tuple, the order `list.sort()` uses on
`Path` objects — and the empty list (not an error) when nothing matches. -/
theorem claim_c9 (paths : List String) :
    (find_settings_files paths).Pairwise (fun a b => pathLe a b = true)
    ∧ (∀ p, p ∈ find_settings_files paths ↔ p ∈ paths ∧ matchesPattern p = true)
    ∧ ((∀ p ∈ paths, matchesPattern p = false) → find_settings_files paths = []) := by
  refine ⟨find_settings_files_sorted paths, fun p => find_settings_files_mem paths p, ?_⟩
  intro h
  rw [find_settings_files]
  have hf : paths.filter matchesPattern = [] := by
    rw [List.filter_eq_nil_iff]
    intro p hp
    simp [h p hp]
  rw [hf]
  exact List.mergeSort_nil

/-- C9 witness: a concrete filesystem, with the no-match antecedent
discharged concretely. -/
theorem claim_c9_witness :
    (find_settings_files
        ["b/.claude/settings.local.json", ".claude/settings.local.json",
         "b/other.json"]).Pairwise (fun a b => pathLe a b = true)
    ∧ ((∀ p ∈ ["conf/settings.json"], matchesPattern p = false)
        → find_settings_files ["conf/settings.json"] = [])
    ∧ (∀ p ∈ ["conf/settings.json"], matchesPattern p = false) := by
  refine ⟨(claim_c9 _).1, (claim_c9 _).2.2, ?_⟩
  decide

/-- C10: whatever the state of the pre-existing output file, when
`update_settings_file` writes, the written `permissions.allow` contains
every supplied permission. -/
theorem claim_c10 (loads : String → Except String Json) (existing : Option String)
    (P : Finset String) (w : Written)
    (h : update_settings_file loads existing P = .ok w) :
    ∀ s ∈ P, s ∈ allowSetOf w.doc := by
  intro s hs
  cases existing with
  | none =>
      simp only [update_settings_file] at h
      rcases hc : updateCore (Json.obj []) ∅ P with e | ⟨doc, n, r⟩ <;> rw [hc] at h
      · cases h
      · obtain ⟨haj, _, _⟩ := updateCore_ok_inv _ _ _ _ _ _ hc
        cases h
        rw [allowSetOf_of_allowJson _ _ haj]
        exact Finset.mem_union_right _ hs
  | some c =>
      simp only [update_settings_file] at h
      rcases hc : updateCore (readExistingBlock loads c).1 (readExistingBlock loads c).2.1 P
        with e | ⟨doc, n, r⟩ <;> rw [hc] at h
      · cases h
      · obtain ⟨haj, _, _⟩ := updateCore_ok_inv _ _ _ _ _ _ hc
        cases h
        rw [allowSetOf_of_allowJson _ _ haj]
        exact Finset.mem_union_right _ hs

def wBadLoads : String → Except String Json := fun _ => Except.error "Expecting value"

def wInDoc : Json :=
  Json.obj [("permissions", Json.obj [("allow", Json.arr [Json.str "C", Json.str "A"])])]

/-- A toy `json.loads` for witnesses: one unparsable output file, one
valid input file. -/
def wLoads : String → Except String Json := fun s =>
  if s = "IN1" then Except.ok wInDoc else Except.error "Expecting value"

/-- C10 witness: merging `{C, A}` into an absent output file writes both
permissions. -/
theorem claim_c10_witness :
    ∃ w, update_settings_file wLoads none ({"C", "A"} : Finset String) = .ok w
      ∧ "C" ∈ allowSetOf w.doc ∧ "A" ∈ allowSetOf w.doc := by
  obtain ⟨w, hupd, -⟩ := update_settings_file_spec wLoads none {"C", "A"} trivial
  exact ⟨w, hupd, claim_c10 _ _ _ _ hupd "C" (by decide),
    claim_c10 _ _ _ _ hupd "A" (by decide)⟩

/-- C8: on a valid JSON input the extractor returns the set of strings at
`permissions.allow`, and an absent `permissions` or `allow` key yields the
empty set with no diagnostic. -/
theorem claim_c8 (loads : String → Except String Json) (path c : String)
    (fs : List (String × Json)) (hok : loads c = .ok (Json.obj fs)) :
    (Json.lookupList fs "permissions" = none →
        extract_allow_permissions loads path c = (∅, []))
    ∧ (∀ ps, Json.lookupList fs "permissions" = some (Json.obj ps) →
        (Json.lookupList ps "allow" = none →
            extract_allow_permissions loads path c = (∅, []))
        ∧ (∀ l : List String, Json.lookupList ps "allow" = some (Json.arr (l.map Json.str)) →
            extract_allow_permissions loads path c = (l.toFinset, []))) := by
  refine ⟨?_, ?_⟩
  · intro hnone
    simp [extract_allow_permissions, hok, Json.getd, hnone, Json.strSet, Json.lookupList,
      Json.asStrList]
  · intro ps hps
    refine ⟨?_, ?_⟩
    · intro hnone
      simp [extract_allow_permissions, hok, Json.getd, hps, hnone, Json.strSet,
        Json.asStrList]
    · intro l hl
      simp [extract_allow_permissions, hok, Json.getd, hps, hl, Json.strSet]

def wNoPermsDoc : Json := Json.obj [("other", Json.num 3)]

def wLoads8 : String → Except String Json := fun s =>
  if s = "IN1" then Except.ok wInDoc
  else if s = "IN2" then Except.ok wNoPermsDoc
  else Except.error "Expecting value"

/-- C8 witness: a document with `permissions.allow = ["C", "A"]` yields
`{C, A}` and no diagnostics; a document without `permissions` yields the
empty set and no diagnostics. -/
theorem claim_c8_witness :
    wLoads8 "IN1" = .ok wInDoc
    ∧ wLoads8 "IN2" = .ok wNoPermsDoc
    ∧ extract_allow_permissions wLoads8 "p" "IN1"
        = (["C", "A"].toFinset, [])
    ∧ extract_allow_permissions wLoads8 "q" "IN2" = (∅, []) := by
  refine ⟨rfl, rfl, ?_, ?_⟩
  · exact ((claim_c8 wLoads8 "p" "IN1" _ rfl).2
      [("allow", Json.arr [Json.str "C", Json.str "A"])] rfl).2 ["C", "A"] rfl
  · exact (claim_c8 wLoads8 "q" "IN2" _ rfl).1 rfl

/-- C5: an unparsable input file draws a diagnostic naming the file and
the parse error and contributes the empty set; the merged result over the
other files is unchanged, and a run whose output file is absent always
exits 0. -/
theorem claim_c5 (loads : String → Except String Json) (p c e : String)
    (hbad : loads c = .error e) (l1 l2 : List (String × String)) :
    extract_allow_permissions loads p c = (∅, [Msg.parseErrorInput p e])
    ∧ (merge_permissions loads (l1 ++ (p, c) :: l2)).1 = (merge_permissions loads (l1 ++ l2)).1
    ∧ Msg.parseErrorInput p e ∈ (merge_permissions loads (l1 ++ (p, c) :: l2)).2
    ∧ ∀ fsys : List (String × String), (mainRun loads fsys none).exitCode = 0 := by
  have hex : extract_allow_permissions loads p c = (∅, [Msg.parseErrorInput p e]) := by
    simp [extract_allow_permissions, hbad]
  refine ⟨hex, ?_, ?_, ?_⟩
  · apply Finset.ext
    intro s
    rw [merge_permissions_mem, merge_permissions_mem]
    constructor
    · rintro ⟨pc, hpc, hs⟩
      rcases List.mem_append.mp hpc with h1 | h1
      · exact ⟨pc, List.mem_append.mpr (Or.inl h1), hs⟩
      · rcases List.mem_cons.mp h1 with rfl | h2
        · rw [hex] at hs
          cases hs
        · exact ⟨pc, List.mem_append.mpr (Or.inr h2), hs⟩
    · rintro ⟨pc, hpc, hs⟩
      rcases List.mem_append.mp hpc with h1 | h1
      · exact ⟨pc, List.mem_append.mpr (Or.inl h1), hs⟩
      · exact ⟨pc, List.mem_append.mpr (Or.inr (List.mem_cons.mpr (Or.inr h1))), hs⟩
  · refine merge_permissions_msgs loads _ (p, c)
      (List.mem_append.mpr (Or.inr (List.mem_cons.mpr (Or.inl rfl)))) _ ?_
    rw [hex]
    exact List.mem_singleton.mpr rfl
  · intro fsys
    by_cases hfi : find_settings_files (fsys.map Prod.fst) = []
    · exact (mainRun_skips loads fsys none (Or.inl hfi)).1
    · by_cases hperm : (merge_permissions loads (runInputs fsys)).1 = ∅
      · exact (mainRun_skips loads fsys none (Or.inr hperm)).1
      · obtain ⟨w, hupd, -⟩ := update_settings_file_spec loads none
          (merge_permissions loads (runInputs fsys)).1 trivial
        rw [mainRun_writes loads fsys none w hfi hupd hperm]

/-- C5 witness: one malformed file alongside one valid file; the valid
file's permissions survive, the malformed file contributes nothing. -/
theorem claim_c5_witness :
    wLoads "junk" = Except.error "Expecting value"
    ∧ extract_allow_permissions wLoads "bad/.claude/settings.local.json" "junk"
        = (∅, [Msg.parseErrorInput "bad/.claude/settings.local.json" "Expecting value"])
    ∧ (merge_permissions wLoads
          [("a/.claude/settings.local.json", "IN1"),
           ("bad/.claude/settings.local.json", "junk")]).1
        = (merge_permissions wLoads [("a/.claude/settings.local.json", "IN1")]).1
    ∧ Msg.parseErrorInput "bad/.claude/settings.local.json" "Expecting value"
        ∈ (merge_permissions wLoads
            [("a/.claude/settings.local.json", "IN1"),
             ("bad/.claude/settings.local.json", "junk")]).2
    ∧ (mainRun wLoads [("a/.claude/settings.local.json", "IN1")] none).exitCode = 0 := by
  have h := claim_c5 wLoads "bad/.claude/settings.local.json" "junk" "Expecting value" rfl
    [("a/.claude/settings.local.json", "IN1")] []
  exact ⟨rfl, h.1, h.2.1, h.2.2.1, h.2.2.2 _⟩

/-- C4: when the pre-existing output fails direct parsing but parses after
the trailing-comma repair, the repaired document is used: its `allow`
entries all survive into the written union, and the repair diagnostic is
emitted. -/
theorem claim_c4 (loads : String → Except String Json) (c e : String) (d : Json)
    (P : Finset String) (hdirect : loads c = .error e)
    (hrepair : loads (fixTrailingCommas c) = .ok d) (hwf : wfDocB d = true) :
    ∃ w, update_settings_file loads (some c) P = .ok w
      ∧ (∀ s ∈ allowSetOf d, s ∈ allowSetOf w.doc)
      ∧ Msg.fixedTrailing ∈ w.msgs := by
  have hpp : parsedPrior loads c = some d := by
    simp [parsedPrior, hdirect, hrepair]
  have hprior : PriorOk loads (some c) := ⟨d, hpp, hwf⟩
  obtain ⟨w, hupd, -, hset, -, -, -, hfiximp⟩ :=
    update_settings_file_spec loads (some c) P hprior
  have hpa : priorAllowSet loads (some c) = allowSetOf d := by
    simp [priorAllowSet, hpp]
  refine ⟨w, hupd, ?_, hfiximp c rfl ⟨e, hdirect⟩⟩
  intro s hs
  rw [hset, hpa]
  exact Finset.mem_union_left _ hs

/-- C6: the writer mutates only `permissions`: every other top-level field
of the parsed pre-existing document is carried through; within
`permissions`, `deny` and `ask` are preserved when present and set to `[]`
when absent; the written content is the 2-space-indented serialization
followed by exactly one trailing newline. -/
theorem claim_c6 (loads : String → Except String Json) (c : String)
    (fs : List (String × Json)) (P : Finset String)
    (hparse : parsedPrior loads c = some (Json.obj fs))
    (hwf : wfDocB (Json.obj fs) = true) :
    ∃ w ps3, update_settings_file loads (some c) P = .ok w
      ∧ w.doc = Json.obj (Json.setKey fs "permissions" (Json.obj ps3))
      ∧ (∀ k, k ≠ "permissions" →
          Json.lookupList (Json.setKey fs "permissions" (Json.obj ps3)) k
            = Json.lookupList fs k)
      ∧ Json.lookupList ps3 "deny" = some ((permsFieldVal fs "deny").getD (Json.arr []))
      ∧ Json.lookupList ps3 "ask" = some ((permsFieldVal fs "ask").getD (Json.arr []))
      ∧ writtenContent w.doc = dumps w.doc ++ "\x0a"
      ∧ (dumps w.doc).data.getLast? ≠ some '\x0a' := by
  obtain ⟨m, hrb, -⟩ := readExistingBlock_spec loads c (Json.obj fs) hparse hwf
  have hshape : Json.lookupList fs "permissions" = none
      ∨ ∃ ps0, Json.lookupList fs "permissions" = some (Json.obj ps0) := by
    obtain ⟨fs2, heq2, hs⟩ := wfDocB_shape _ hwf
    injection heq2 with h
    subst h
    exact hs
  obtain ⟨ps3, heq, ha, hd, hk⟩ := updateCore_spec fs (allowSetOf (Json.obj fs)) P hshape
  have hupd : update_settings_file loads (some c) P =
      .ok ⟨Json.obj (Json.setKey fs "permissions" (Json.obj ps3)),
           P \ allowSetOf (Json.obj fs),
           m ++ updReport (allowSetOf (Json.obj fs)) P⟩ := by
    simp only [update_settings_file, hrb, heq]
  refine ⟨_, ps3, hupd, rfl, ?_, hd, hk, rfl, dumps_data_getLast_ne_nl _⟩
  intro k hk2
  exact Json.lookupList_setKey_ne fs _ k _ hk2

/-- C1: a writing run writes `permissions.allow` as exactly the duplicate-
free, lexicographically sorted union of the pre-existing document's allow
entries and all allow entries extracted from the discovered input files. -/
theorem claim_c1 (loads : String → Except String Json)
    (fsys : List (String × String)) (outC : Option String)
    (hprior : PriorOk loads outC)
    (hfiles : find_settings_files (fsys.map Prod.fst) ≠ [])
    (hperms : (merge_permissions loads (runInputs fsys)).1 ≠ ∅) :
    ∃ (doc : Json) (l : List String),
      (mainRun loads fsys outC).exitCode = 0
      ∧ (mainRun loads fsys outC).output = some (writtenContent doc)
      ∧ allowJson doc = some (Json.arr (l.map Json.str))
      ∧ l.Sorted (· ≤ ·)
      ∧ l.Nodup
      ∧ (∀ s : String, s ∈ l ↔ s ∈ priorAllowSet loads outC
          ∨ ∃ pc ∈ runInputs fsys, s ∈ (extract_allow_permissions loads pc.1 pc.2).1) := by
  obtain ⟨w, hupd, haj, -, -, -, -, -⟩ :=
    update_settings_file_spec loads outC (merge_permissions loads (runInputs fsys)).1 hprior
  have hrun := mainRun_writes loads fsys outC w hfiles hupd hperms
  refine ⟨w.doc,
    (priorAllowSet loads outC ∪ (merge_permissions loads (runInputs fsys)).1).sort (· ≤ ·),
    ?_, ?_, ?_, ?_, ?_, ?_⟩
  · rw [hrun]
  · rw [hrun]
  · rw [haj]; rfl
  · exact Finset.sort_sorted _ _
  · exact Finset.sort_nodup _ _
  · intro s
    rw [Finset.mem_sort, Finset.mem_union, merge_permissions_mem]

/-- C3: with identical inputs and the output file as written by the first
run, the second run's `permissions.allow` is unchanged and the run
reports zero newly added permissions. -/
theorem claim_c3 (loads : String → Except String Json)
    (fsys : List (String × String)) (outC : Option String)
    (hprior : PriorOk loads outC)
    (hfiles : find_settings_files (fsys.map Prod.fst) ≠ [])
    (hperms : (merge_permissions loads (runInputs fsys)).1 ≠ ∅)
    (w1 : Written)
    (h1 : update_settings_file loads outC (merge_permissions loads (runInputs fsys)).1 = .ok w1)
    (hround : loads (writtenContent w1.doc) = .ok w1.doc) :
    (mainRun loads fsys outC).output = some (writtenContent w1.doc)
    ∧ ∃ w2, update_settings_file loads (some (writtenContent w1.doc))
          (merge_permissions loads (runInputs fsys)).1 = .ok w2
        ∧ (mainRun loads fsys (some (writtenContent w1.doc))).exitCode = 0
        ∧ (mainRun loads fsys (some (writtenContent w1.doc))).output
            = some (writtenContent w2.doc)
        ∧ allowJson w2.doc = allowJson w1.doc
        ∧ w2.newPerms = ∅
        ∧ Msg.noNew ∈ w2.msgs := by
  obtain ⟨w1', hupd', haj', hset', hwf', -, -, -⟩ :=
    update_settings_file_spec loads outC (merge_permissions loads (runInputs fsys)).1 hprior
  have hw1 : w1' = w1 := by
    rw [hupd'] at h1
    cases h1
    rfl
  subst hw1
  constructor
  · rw [mainRun_writes loads fsys outC w1' hfiles h1 hperms]
  · have hprior2 : PriorOk loads (some (writtenContent w1'.doc)) :=
      ⟨w1'.doc, by simp [parsedPrior, hround], hwf'⟩
    obtain ⟨w2, hupd2, haj2, -, -, hnew2, hnoNew2, -⟩ :=
      update_settings_file_spec loads (some (writtenContent w1'.doc))
        (merge_permissions loads (runInputs fsys)).1 hprior2
    have hpa2 : priorAllowSet loads (some (writtenContent w1'.doc))
        = allowSetOf w1'.doc := by
      simp [priorAllowSet, parsedPrior, hround]
    have hunion : priorAllowSet loads (some (writtenContent w1'.doc))
        ∪ (merge_permissions loads (runInputs fsys)).1
        = priorAllowSet loads outC ∪ (merge_permissions loads (runInputs fsys)).1 := by
      rw [hpa2, hset', Finset.union_assoc, Finset.union_self]
    have hempty : (merge_permissions loads (runInputs fsys)).1
        \ priorAllowSet loads (some (writtenContent w1'.doc)) = ∅ := by
      rw [hpa2, hset']
      exact Finset.sdiff_eq_empty_iff_subset.mpr Finset.subset_union_right
    refine ⟨w2, hupd2, ?_, ?_, ?_, ?_, ?_⟩
    · rw [mainRun_writes loads fsys _ w2 hfiles hupd2 hperms]
    · rw [mainRun_writes loads fsys _ w2 hfiles hupd2 hperms]
    · rw [haj2, haj', hunion]
    · rw [hnew2, hempty]
    · exact hnoNew2 hempty

/-- C2 (code evaluation): when the pre-existing output content fails both
the direct parse and the repaired parse, the writer warns — printing
`Will preserve other settings but reset permissions` — but the document it
writes consists of the `permissions` object alone: every other top-level
field of the pre-existing file is dropped, contradicting the warning and
the claim. -/
theorem claim_c2_bug (loads : String → Except String Json) (c : String)
    (P : Finset String) (e1 e2 : String)
    (h1 : loads c = .error e1) (h2 : loads (fixTrailingCommas c) = .error e2) :
    update_settings_file loads (some c) P =
      .ok ⟨Json.obj [("permissions", Json.obj
            [("allow", sortedAllowArr P), ("deny", Json.arr []), ("ask", Json.arr [])])],
           P,
           [Msg.couldNotParseWarn e2, Msg.warnWillPreserve]
             ++ ((if P = ∅ then [Msg.noNew] else [Msg.addedNew P.card])
                  ++ [Msg.updatedOk P.card])⟩ := by
  have hrb := readExistingBlock_fail loads c e1 e2 h1 h2
  have habs := updateCore_absent_spec [] ∅ P (by simp [Json.lookupList])
  simp only [update_settings_file, hrb, habs]
  simp [Json.setKey, updReport, sortedAllowArr]

/-- Closed form of the writer when the output file is absent. -/
theorem update_none_eq (loads : String → Except String Json) (P : Finset String) :
    update_settings_file loads none P =
      .ok ⟨Json.obj [("permissions", Json.obj
            [("allow", sortedAllowArr P), ("deny", Json.arr []), ("ask", Json.arr [])])],
           P,
           (if P = ∅ then [Msg.noNew] else [Msg.addedNew P.card]) ++ [Msg.updatedOk P.card]⟩ := by
  have habs := updateCore_absent_spec [] ∅ P (by simp [Json.lookupList])
  simp only [update_settings_file, habs]
  simp [Json.setKey, updReport, sortedAllowArr]

def wPriorB : Json := Json.obj [("permissions", Json.obj [("allow", Json.arr [Json.str "B"])])]

def wLoads4 : String → Except String Json := fun s =>
  if s = "]" then Except.ok wPriorB else Except.error "Expecting value"

unseal fixAux in
/-- C4 witness: the content `,]` fails the direct parse, repairs to `]`
which parses to a document whose allow entry `B` survives, and the repair
diagnostic is emitted. -/
theorem claim_c4_witness :
    wLoads4 ",]" = Except.error "Expecting value"
    ∧ fixTrailingCommas ",]" = "]"
    ∧ wLoads4 (fixTrailingCommas ",]") = Except.ok wPriorB
    ∧ wfDocB wPriorB = true
    ∧ ∃ w, update_settings_file wLoads4 (some ",]") ({"A"} : Finset String) = .ok w
        ∧ (∀ s ∈ allowSetOf wPriorB, s ∈ allowSetOf w.doc)
        ∧ Msg.fixedTrailing ∈ w.msgs := by
  have hfix : fixTrailingCommas ",]" = "]" := rfl
  have hrepair : wLoads4 (fixTrailingCommas ",]") = Except.ok wPriorB := by
    rw [hfix]
    rfl
  exact ⟨rfl, hfix, hrepair, rfl,
    claim_c4 wLoads4 ",]" "Expecting value" wPriorB {"A"} rfl hrepair rfl⟩

def wFs6 : List (String × Json) :=
  [("keep", Json.bool true),
   ("permissions", Json.obj [("allow", Json.arr [Json.str "B"]), ("deny", Json.arr [Json.str "D"])])]

def wLoads6 : String → Except String Json := fun s =>
  if s = "PRIOR" then Except.ok (Json.obj wFs6) else Except.error "Expecting value"

/-- C6 witness: a pre-existing document with an unrelated `keep` field and
a `deny` list; the writer keeps `keep` and `deny` and initializes `ask`. -/
theorem claim_c6_witness :
    parsedPrior wLoads6 "PRIOR" = some (Json.obj wFs6)
    ∧ wfDocB (Json.obj wFs6) = true
    ∧ ∃ w ps3, update_settings_file wLoads6 (some "PRIOR") ({"A"} : Finset String) = .ok w
        ∧ w.doc = Json.obj (Json.setKey wFs6 "permissions" (Json.obj ps3))
        ∧ (∀ k, k ≠ "permissions" →
            Json.lookupList (Json.setKey wFs6 "permissions" (Json.obj ps3)) k
              = Json.lookupList wFs6 k)
        ∧ Json.lookupList ps3 "deny" = some ((permsFieldVal wFs6 "deny").getD (Json.arr []))
        ∧ Json.lookupList ps3 "ask" = some ((permsFieldVal wFs6 "ask").getD (Json.arr []))
        ∧ writtenContent w.doc = dumps w.doc ++ "\x0a"
        ∧ (dumps w.doc).data.getLast? ≠ some '\x0a' :=
  ⟨rfl, rfl, claim_c6 wLoads6 "PRIOR" wFs6 {"A"} rfl rfl⟩

def wFsys1 : List (String × String) := [("a/.claude/settings.local.json", "IN1")]

/-- C1 witness: one input file with allow `[C, A]`, no pre-existing
output; the run writes and its allow list is characterized by the claim. -/
theorem claim_c1_witness :
    PriorOk wLoads none
    ∧ find_settings_files (wFsys1.map Prod.fst) ≠ []
    ∧ (merge_permissions wLoads (runInputs wFsys1)).1 ≠ ∅
    ∧ ∃ (doc : Json) (l : List String),
        (mainRun wLoads wFsys1 none).exitCode = 0
        ∧ (mainRun wLoads wFsys1 none).output = some (writtenContent doc)
        ∧ allowJson doc = some (Json.arr (l.map Json.str))
        ∧ l.Sorted (· ≤ ·)
        ∧ l.Nodup
        ∧ (∀ s : String, s ∈ l ↔ s ∈ priorAllowSet wLoads none
            ∨ ∃ pc ∈ runInputs wFsys1, s ∈ (extract_allow_permissions wLoads pc.1 pc.2).1) := by
  have hfind : find_settings_files (wFsys1.map Prod.fst)
      = ["a/.claude/settings.local.json"] := by
    show ((wFsys1.map Prod.fst).filter matchesPattern).mergeSort _ = _
    rw [show (wFsys1.map Prod.fst).filter matchesPattern
        = ["a/.claude/settings.local.json"] from rfl]
    exact List.mergeSort_singleton _
  have hri : runInputs wFsys1 = [("a/.claude/settings.local.json", "IN1")] := by
    rw [runInputs, hfind]
    rfl
  have hfiles : find_settings_files (wFsys1.map Prod.fst) ≠ [] := by
    rw [hfind]
    exact List.cons_ne_nil _ _
  have hperms : (merge_permissions wLoads (runInputs wFsys1)).1 ≠ ∅ := by
    have hm : "C" ∈ (merge_permissions wLoads (runInputs wFsys1)).1 := by
      rw [merge_permissions_mem]
      refine ⟨("a/.claude/settings.local.json", "IN1"), ?_, ?_⟩
      · rw [hri]
        exact List.mem_singleton.mpr rfl
      · decide
    exact Finset.ne_empty_of_mem hm
  exact ⟨trivial, hfiles, hperms, claim_c1 wLoads wFsys1 none trivial hfiles hperms⟩

def wInDocA : Json := Json.obj [("permissions", Json.obj [("allow", Json.arr [Json.str "A"])])]

def wDoc1 : Json := Json.obj [("permissions", Json.obj
  [("allow", Json.arr [Json.str "A"]), ("deny", Json.arr []), ("ask", Json.arr [])])]

def wFsysA : List (String × String) := [("a/.claude/settings.local.json", "INA")]

def wLoads3 : String → Except String Json := fun s =>
  if s = "INA" then Except.ok wInDocA
  else if s = writtenContent wDoc1 then Except.ok wDoc1
  else Except.error "Expecting value"

/-- C3 witness: one input file with allow `[A]`, no pre-existing output;
the first run writes `wDoc1`; running again on that output adds nothing. -/
theorem claim_c3_witness :
    (merge_permissions wLoads3 (runInputs wFsysA)).1 ≠ ∅
    ∧ update_settings_file wLoads3 none (merge_permissions wLoads3 (runInputs wFsysA)).1
        = .ok ⟨wDoc1, (["A"] : List String).toFinset, [Msg.addedNew 1, Msg.updatedOk 1]⟩
    ∧ wLoads3 (writtenContent wDoc1) = .ok wDoc1
    ∧ ((mainRun wLoads3 wFsysA none).output = some (writtenContent wDoc1)
       ∧ ∃ w2, update_settings_file wLoads3 (some (writtenContent wDoc1))
             (merge_permissions wLoads3 (runInputs wFsysA)).1 = .ok w2
           ∧ (mainRun wLoads3 wFsysA (some (writtenContent wDoc1))).exitCode = 0
           ∧ (mainRun wLoads3 wFsysA (some (writtenContent wDoc1))).output
               = some (writtenContent w2.doc)
           ∧ allowJson w2.doc = allowJson wDoc1
           ∧ w2.newPerms = ∅
           ∧ Msg.noNew ∈ w2.msgs) := by
  have hfindA : find_settings_files (wFsysA.map Prod.fst)
      = ["a/.claude/settings.local.json"] := by
    show ((wFsysA.map Prod.fst).filter matchesPattern).mergeSort _ = _
    rw [show (wFsysA.map Prod.fst).filter matchesPattern
        = ["a/.claude/settings.local.json"] from rfl]
    exact List.mergeSort_singleton _
  have hriA : runInputs wFsysA = [("a/.claude/settings.local.json", "INA")] := by
    rw [runInputs, hfindA]
    rfl
  have hexA : extract_allow_permissions wLoads3 "a/.claude/settings.local.json" "INA"
      = ((["A"] : List String).toFinset, []) := rfl
  have hP : (merge_permissions wLoads3 (runInputs wFsysA)).1
      = (["A"] : List String).toFinset := by
    rw [hriA]
    simp only [merge_permissions, List.foldl_cons, List.foldl_nil, mergeStep, hexA]
    rw [if_neg (by decide : ¬((["A"] : List String).toFinset = ∅))]
    simp
  have hfilesA : find_settings_files (wFsysA.map Prod.fst) ≠ [] := by
    rw [hfindA]
    exact List.cons_ne_nil _ _
  have hpermsA : (merge_permissions wLoads3 (runInputs wFsysA)).1 ≠ ∅ := by
    rw [hP]
    decide
  have hsortA : Finset.sort (· ≤ ·) ((["A"] : List String).toFinset)
      = ["A"] := by
    rw [show (["A"] : List String).toFinset = ({"A"} : Finset String) from by decide]
    exact Finset.sort_singleton _ _
  have h1 : update_settings_file wLoads3 none (merge_permissions wLoads3 (runInputs wFsysA)).1
      = .ok ⟨wDoc1, (["A"] : List String).toFinset, [Msg.addedNew 1, Msg.updatedOk 1]⟩ := by
    rw [update_none_eq, hP]
    simp only [sortedAllowArr, hsortA]
    rw [if_neg (by decide : ¬((["A"] : List String).toFinset = ∅))]
    rfl
  have hround : wLoads3 (writtenContent wDoc1) = .ok wDoc1 := by
    simp only [wLoads3]
    rw [if_neg (by decide)]
    simp
  have h := claim_c3 wLoads3 wFsysA none trivial hfilesA hpermsA
    ⟨wDoc1, (["A"] : List String).toFinset, [Msg.addedNew 1, Msg.updatedOk 1]⟩ h1 hround
  exact ⟨hpermsA, h1, hround, h⟩

/-- C2 (code-bug) witness: concrete unparsable output content containing a
`keep` field; the written document has no top-level `keep`. -/
theorem claim_c2_bug_witness :
    wBadLoads "\x7b\"keep\": true" = Except.error "Expecting value"
    ∧ wBadLoads (fixTrailingCommas "\x7b\"keep\": true") = Except.error "Expecting value"
    ∧ update_settings_file wBadLoads (some "\x7b\"keep\": true") ({"A"} : Finset String) =
        .ok ⟨Json.obj [("permissions", Json.obj
              [("allow", sortedAllowArr {"A"}), ("deny", Json.arr []), ("ask", Json.arr [])])],
             {"A"},
             [Msg.couldNotParseWarn "Expecting value", Msg.warnWillPreserve]
               ++ ((if ({"A"} : Finset String) = ∅ then [Msg.noNew]
                    else [Msg.addedNew ({"A"} : Finset String).card])
                    ++ [Msg.updatedOk ({"A"} : Finset String).card])⟩
    ∧ sortedAllowArr ({"A"} : Finset String) = Json.arr [Json.str "A"]
    ∧ Json.lookupList [("permissions", Json.obj
          [("allow", sortedAllowArr ({"A"} : Finset String)), ("deny", Json.arr []),
           ("ask", Json.arr [])])] "keep" = none := by
  refine ⟨rfl, rfl,
    claim_c2_bug wBadLoads _ {"A"} "Expecting value" "Expecting value" rfl rfl, ?_, rfl⟩
  simp [sortedAllowArr, Finset.sort_singleton]
